import Mathlib

/-!
Shallow embedding of the `top_k_words` function of the repository
(`log_word_analyzer_cli/src/main.rs` and `log_word_analyzer_static/src/main.rs`),
together with proofs of the specification claims about it.

Strings are modelled as their lists of Unicode scalar values (`Char`), which is
exactly Lean 4.14's `String` representation.  Rust's `String` comparison is
byte-lexicographic on UTF-8; since UTF-8 preserves the code-point order,
byte-lexicographic order coincides with code-point-lexicographic order on the
character lists, which is what `charsCmp` below implements.
-/

/-- Model of Rust `char::is_ascii_alphanumeric`: true exactly on
the ASCII ranges `0`-`9`, `A`-`Z` and `a`-`z`. -/
def is_ascii_alphanumeric (c : Char) : Bool :=
  ('0' ≤ c && c ≤ '9') || ('A' ≤ c && c ≤ 'Z') || ('a' ≤ c && c ≤ 'z')

/-- Model of Rust `char::to_lowercase` (the per-character Unicode lowercase
mapping used by `str::to_lowercase`).  The mapping is faithful on the entire
ASCII range (`A`-`Z` map to `a`-`z`, everything else is a fixed point).  Of the
non-ASCII part of the Unicode lowercase table we include only the entries this
development actually evaluates: U+212A KELVIN SIGN, whose Unicode simple
lowercase mapping is ASCII `k` (UnicodeData entry `212A;... ;006B`), and
U+00C9 LATIN CAPITAL LETTER E WITH ACUTE, which maps to U+00E9.  All other
non-ASCII characters are treated as fixed points; they are non-ASCII, hence
delimiters for the tokenizer, so this restriction is observationally harmless
for every property proved below except where the two listed characters are
used explicitly.  (Rust additionally applies the Greek final-sigma context
rule, which maps a non-ASCII character to a non-ASCII character and therefore
also never affects tokenization.) -/
def char_to_lowercase (c : Char) : List Char :=
  if 'A' ≤ c && c ≤ 'Z' then [Char.ofNat (c.toNat + 32)]
  else if c = '\u212A' then ['k']
  else if c = '\u00C9' then ['\u00E9']
  else [c]

/-- Model of Rust `str::to_lowercase`, applied characterwise. -/
def to_lowercase (s : String) : String :=
  ⟨s.data.flatMap char_to_lowercase⟩

/-- Model of Rust `str::split` with a character predicate: the list is cut at
every character satisfying `p` (the delimiter is dropped), and adjacent
delimiters, or delimiters at either end, produce empty chunks.  In particular
`split_on p [] = [[]]`, matching Rust's `"".split(p)` yielding one empty
piece. -/
def split_on (p : Char → Bool) : List Char → List (List Char)
  | [] => [[]]
  | c :: cs =>
    if p c then [] :: split_on p cs
    else
      match split_on p cs with
      | [] => [[c]]
      | w :: ws => (c :: w) :: ws

/-- The per-line tokenization of `top_k_words`: lowercase the line, split on
every character that is not ASCII alphanumeric, and drop the empty chunks
(the `if word.is_empty() { continue; }` in the source). -/
def tokenize_line (line : String) : List String :=
  ((split_on (fun c => !is_ascii_alphanumeric c) (to_lowercase line).data).filter
    (fun w => !w.isEmpty)).map String.mk

/-- All tokens of all lines, in order of appearance.  Folding the counting
step over this list is the sequentialization of the source's nested
`for line in logs { for word in ... }` loops. -/
def all_tokens (logs : List String) : List String :=
  logs.flatMap tokenize_line

/-- Model of `*frequency_map.entry(word.to_string()).or_insert(0) += 1` on an
association-list model of `HashMap<String, usize>`: bump the count of `w` if
present, otherwise append `(w, 1)`.  The list order is the key-insertion
order; the claim `C5` theorem proves that the final output is independent of
the order in which the map's entries are materialized, so modelling the hash
map by any association list with unique keys is faithful. -/
def add_word (m : List (String × Nat)) (w : String) : List (String × Nat) :=
  match m with
  | [] => [(w, 1)]
  | (w', c) :: rest => if w' = w then (w', c + 1) :: rest else (w', c) :: add_word rest w

/-- The frequency table built from a token list (the `frequency_map` of the
source after the scanning loops). -/
def build_frequency (tokens : List String) : List (String × Nat) :=
  tokens.foldl add_word []

/-- Three-way comparison on `Nat`, the model of Rust `usize::cmp`. -/
def natCmp (a b : Nat) : Ordering :=
  if a < b then .lt else if b < a then .gt else .eq

/-- Three-way comparison on `Char` by code point. -/
def charCmp (a b : Char) : Ordering :=
  if a < b then .lt else if b < a then .gt else .eq

/-- Lexicographic three-way comparison on character lists: the model of Rust
`String::cmp` (byte-lexicographic on UTF-8, which coincides with code-point
lexicographic order). -/
def charsCmp : List Char → List Char → Ordering
  | [], [] => .eq
  | [], _ :: _ => .lt
  | _ :: _, [] => .gt
  | a :: as, b :: bs => (charCmp a b).then (charsCmp as bs)

/-- Model of Rust `String::cmp`. -/
def wordCmp (a b : String) : Ordering :=
  charsCmp a.data b.data

/-- The comparator closure of the source's `sort_by` call:
`b.1.cmp(&a.1).then_with(|| a.0.cmp(&b.0))` — count descending, then word
ascending. -/
def entryCmp (a b : String × Nat) : Ordering :=
  (natCmp b.2 a.2).then (wordCmp a.1 b.1)

/-- The non-strict order induced by `entryCmp`: `a` may precede `b` exactly
when the comparator does not answer `Greater`. -/
def entryLe (a b : String × Nat) : Bool :=
  decide (entryCmp a b ≠ .gt)

/-- Insertion of an element into a list, in front of the first element it
may precede. -/
def insert_by (le : α → α → Bool) (x : α) : List α → List α
  | [] => [x]
  | y :: ys => if le x y then x :: y :: ys else y :: insert_by le x ys

/-- Insertion sort.  Rust's `slice::sort_by` is a stable comparison sort;
for the antisymmetric comparator used here every comparison sort produces the
same, unique sorted arrangement (this uniqueness is proved for claim `C5`),
so insertion sort is an observationally faithful model. -/
def sort_by (le : α → α → Bool) : List α → List α
  | [] => []
  | x :: xs => insert_by le x (sort_by le xs)

/-- The sorted, untruncated result of `top_k_words` (the source's
`word_counts` vector after the `sort_by` call, before `truncate`). -/
def word_counts (logs : List String) : List (String × Nat) :=
  sort_by entryLe (build_frequency (all_tokens logs))

/-- Model of `top_k_words` from `log_word_analyzer_cli/src/main.rs`
(lines 25-59): build the frequency table over all tokens of all lines, sort
by count descending then word ascending, and truncate to the first `k`
entries. -/
def top_k_words (logs : List String) (k : Nat) : List (String × Nat) :=
  (word_counts logs).take k

namespace StaticMain

/-- The tokenization step of the `top_k_words` copy in
`log_word_analyzer_static/src/main.rs`, transcribed separately because the
source file duplicates the whole function. -/
def tokenize_line (line : String) : List String :=
  ((split_on (fun c => !is_ascii_alphanumeric c) (to_lowercase line).data).filter
    (fun w => !w.isEmpty)).map String.mk

/-- The counting step of the static copy. -/
def add_word (m : List (String × Nat)) (w : String) : List (String × Nat) :=
  match m with
  | [] => [(w, 1)]
  | (w', c) :: rest => if w' = w then (w', c + 1) :: rest else (w', c) :: add_word rest w

/-- The comparator closure of the static copy. -/
def entryCmp (a b : String × Nat) : Ordering :=
  (natCmp b.2 a.2).then (wordCmp a.1 b.1)

/-- The non-strict order induced by the static copy's comparator. -/
def entryLe (a b : String × Nat) : Bool :=
  decide (entryCmp a b ≠ .gt)

/-- Model of `top_k_words` from `log_word_analyzer_static/src/main.rs`
(lines 22-56), a byte-for-byte duplicate of the CLI version. -/
def top_k_words (logs : List String) (k : Nat) : List (String × Nat) :=
  (sort_by entryLe ((logs.flatMap tokenize_line).foldl add_word [])).take k

end StaticMain

/-- Predicate used by the specification: an ASCII lowercase letter or an
ASCII digit. -/
def is_ascii_lower_alnum (c : Char) : Bool :=
  ('0' ≤ c && c ≤ '9') || ('a' ≤ c && c ≤ 'z')

/-- Model of Rust `char::is_ascii`: the code point is at most 127. -/
def is_ascii (c : Char) : Bool :=
  c.toNat ≤ 127

/-- An ASCII letter, upper or lower case. -/
def is_ascii_alpha (c : Char) : Bool :=
  ('A' ≤ c && c ≤ 'Z') || ('a' ≤ c && c ≤ 'z')

/-- Case folding of a single ASCII letter (identity on everything else);
used to state the case-insensitivity claim. -/
def ascii_fold (c : Char) : Char :=
  if 'A' ≤ c && c ≤ 'Z' then Char.ofNat (c.toNat + 32) else c

/-- Two characters differ at most in ASCII letter case: they are equal, or
they are both ASCII letters with the same case folding. -/
def char_case_eq (a b : Char) : Bool :=
  a == b || (is_ascii_alpha a && is_ascii_alpha b && ascii_fold a == ascii_fold b)

/-- Two character lists differ at most in the ASCII letter case of their
characters. -/
def chars_case_eq : List Char → List Char → Bool
  | [], [] => true
  | a :: as, b :: bs => char_case_eq a b && chars_case_eq as bs
  | _, _ => false

/-- Two line lists differ at most in the ASCII letter case of their
characters. -/
def logs_case_eq : List String → List String → Bool
  | [], [] => true
  | s :: ss, t :: ts => chars_case_eq s.data t.data && logs_case_eq ss ts
  | _, _ => false

theorem ascii_code_values :
    ('0' : Char).toNat = 48 ∧ ('9' : Char).toNat = 57 ∧ ('A' : Char).toNat = 65 ∧
      ('Z' : Char).toNat = 90 ∧ ('a' : Char).toNat = 97 ∧ ('z' : Char).toNat = 122 :=
  ⟨rfl, rfl, rfl, rfl, rfl, rfl⟩

theorem char_le_iff_toNat {a b : Char} : a ≤ b ↔ a.toNat ≤ b.toNat := by
  rw [Char.le_def, UInt32.le_def, BitVec.le_def]; rfl

theorem char_lt_iff_toNat {a b : Char} : a < b ↔ a.toNat < b.toNat := by
  rw [Char.lt_def, UInt32.lt_def, BitVec.lt_def]; rfl

theorem char_toNat_ofNat {n : Nat} (h : n.isValidChar) : (Char.ofNat n).toNat = n := by
  simp only [Char.ofNat, h, dif_pos]; rfl

theorem char_eq_iff_toNat {a b : Char} : a = b ↔ a.toNat = b.toNat := by
  constructor
  · intro h; rw [h]
  · intro h; exact Char.ext (UInt32.ext h)

theorem is_ascii_alphanumeric_iff {c : Char} : is_ascii_alphanumeric c = true ↔
    (48 ≤ c.toNat ∧ c.toNat ≤ 57) ∨ (65 ≤ c.toNat ∧ c.toNat ≤ 90) ∨
      (97 ≤ c.toNat ∧ c.toNat ≤ 122) := by
  obtain ⟨h0, h9, hA, hZ, ha, hz⟩ := ascii_code_values
  simp only [is_ascii_alphanumeric, Bool.or_eq_true, Bool.and_eq_true, decide_eq_true_eq,
    char_le_iff_toNat, h0, h9, hA, hZ, ha, hz]
  tauto

theorem is_ascii_lower_alnum_iff {c : Char} : is_ascii_lower_alnum c = true ↔
    (48 ≤ c.toNat ∧ c.toNat ≤ 57) ∨ (97 ≤ c.toNat ∧ c.toNat ≤ 122) := by
  obtain ⟨h0, h9, -, -, ha, hz⟩ := ascii_code_values
  simp only [is_ascii_lower_alnum, Bool.or_eq_true, Bool.and_eq_true, decide_eq_true_eq,
    char_le_iff_toNat, h0, h9, ha, hz]

/-- Every character produced by the lowercase mapping lies outside the ASCII
uppercase range. -/
theorem toNat_notin_upper_of_mem_char_to_lowercase {c d : Char}
    (hd : d ∈ char_to_lowercase c) : ¬ (65 ≤ d.toNat ∧ d.toNat ≤ 90) := by
  obtain ⟨-, -, hA, hZ, -, -⟩ := ascii_code_values
  unfold char_to_lowercase at hd
  split at hd
  case isTrue hc =>
    simp only [List.mem_singleton] at hd
    subst hd
    simp only [Bool.and_eq_true, decide_eq_true_eq, char_le_iff_toNat, hA, hZ] at hc
    have hv : (c.toNat + 32).isValidChar := Or.inl (by omega)
    rw [char_toNat_ofNat hv]
    omega
  case isFalse =>
    split at hd
    · simp only [List.mem_singleton] at hd
      subst hd; intro h; exact absurd h (by decide)
    · split at hd
      · simp only [List.mem_singleton] at hd
        subst hd; intro h; exact absurd h (by decide)
      · simp only [List.mem_singleton] at hd
        subst hd
        rename_i hc _ _
        intro h
        rcases h with ⟨h1, h2⟩
        exact hc (by
          simp only [Bool.and_eq_true, decide_eq_true_eq, char_le_iff_toNat, hA, hZ]
          exact ⟨h1, h2⟩)

theorem lower_alnum_of_alnum_not_upper {d : Char}
    (ha : is_ascii_alphanumeric d = true) (hu : ¬ (65 ≤ d.toNat ∧ d.toNat ≤ 90)) :
    is_ascii_lower_alnum d = true := by
  rw [is_ascii_alphanumeric_iff] at ha
  rw [is_ascii_lower_alnum_iff]
  omega

theorem mem_of_mem_split_on {p : Char → Bool} {l w : List Char}
    (hw : w ∈ split_on p l) : ∀ c ∈ w, p c = false ∧ c ∈ l := by
  induction l generalizing w with
  | nil =>
    simp only [split_on, List.mem_singleton] at hw
    subst hw
    intro c hc
    exact absurd hc (List.not_mem_nil c)
  | cons x xs ih =>
    simp only [split_on] at hw
    by_cases hp : p x
    · rw [if_pos hp] at hw
      rcases List.mem_cons.mp hw with h | h
      · subst h; intro c hc; exact absurd hc (List.not_mem_nil c)
      · intro c hc
        rcases ih h c hc with ⟨h1, h2⟩
        exact ⟨h1, List.mem_cons_of_mem x h2⟩
    · rw [if_neg hp] at hw
      rcases hrec : split_on p xs with _ | ⟨w₀, ws⟩
      · rw [hrec] at hw
        simp only [List.mem_singleton] at hw
        subst hw
        intro c hc
        simp only [List.mem_singleton] at hc
        subst hc
        exact ⟨Bool.of_not_eq_true hp, List.mem_cons_self _ _⟩
      · rw [hrec] at hw
        rcases List.mem_cons.mp hw with h | h
        · subst h
          intro c hc
          rcases List.mem_cons.mp hc with h' | h'
          · subst h'
            exact ⟨Bool.of_not_eq_true hp, List.mem_cons_self _ _⟩
          · have : w₀ ∈ split_on p xs := by rw [hrec]; exact List.mem_cons_self w₀ ws
            rcases ih this c h' with ⟨h1, h2⟩
            exact ⟨h1, List.mem_cons_of_mem x h2⟩
        · have : w ∈ split_on p xs := by rw [hrec]; exact List.mem_cons_of_mem w₀ h
          intro c hc
          rcases ih this c hc with ⟨h1, h2⟩
          exact ⟨h1, List.mem_cons_of_mem x h2⟩

theorem keys_add_word (m : List (String × Nat)) (w : String) :
    (add_word m w).map Prod.fst =
      if w ∈ m.map Prod.fst then m.map Prod.fst else m.map Prod.fst ++ [w] := by
  induction m with
  | nil => simp [add_word]
  | cons q rest ih =>
    rcases q with ⟨w', c⟩
    simp only [add_word]
    by_cases hww : w' = w
    · subst hww
      simp [List.mem_cons]
    · rw [if_neg hww]
      simp only [List.map_cons, List.mem_cons]
      rw [ih]
      by_cases hmem : w ∈ rest.map Prod.fst
      · rw [if_pos hmem, if_pos (Or.inr hmem)]
      · rw [if_neg hmem, if_neg (by rintro (h | h); exact hww h.symm; exact hmem h)]
        simp

theorem sum_add_word (m : List (String × Nat)) (w : String) :
    ((add_word m w).map Prod.snd).sum = (m.map Prod.snd).sum + 1 := by
  induction m with
  | nil => simp [add_word]
  | cons q rest ih =>
    rcases q with ⟨w', c⟩
    simp only [add_word]
    by_cases hww : w' = w
    · subst hww; simp [List.sum_cons]; omega
    · rw [if_neg hww]
      simp only [List.map_cons, List.sum_cons, ih]
      omega

theorem pos_add_word {m : List (String × Nat)} {w : String}
    (hm : ∀ q ∈ m, 0 < q.2) : ∀ q ∈ add_word m w, 0 < q.2 := by
  induction m with
  | nil =>
    intro q hq
    simp only [add_word, List.mem_singleton] at hq
    subst hq; exact Nat.one_pos
  | cons p rest ih =>
    rcases p with ⟨w', c⟩
    intro q hq
    simp only [add_word] at hq
    by_cases hww : w' = w
    · rw [if_pos hww] at hq
      rcases List.mem_cons.mp hq with h | h
      · subst h; exact Nat.succ_pos c
      · exact hm q (List.mem_cons_of_mem _ h)
    · rw [if_neg hww] at hq
      rcases List.mem_cons.mp hq with h | h
      · subst h; exact hm _ (List.mem_cons_self _ _)
      · exact ih (fun q hq => hm q (List.mem_cons_of_mem _ hq)) q h

theorem nodup_keys_add_word {m : List (String × Nat)} {w : String}
    (hm : (m.map Prod.fst).Nodup) : ((add_word m w).map Prod.fst).Nodup := by
  rw [keys_add_word]
  by_cases hmem : w ∈ m.map Prod.fst
  · rw [if_pos hmem]; exact hm
  · rw [if_neg hmem]
    simp only [List.nodup_append, List.nodup_singleton, List.disjoint_singleton]
    exact ⟨hm, trivial, hmem⟩

theorem mem_keys_add_word {m : List (String × Nat)} {w x : String} :
    x ∈ (add_word m w).map Prod.fst ↔ x ∈ m.map Prod.fst ∨ x = w := by
  rw [keys_add_word]
  by_cases hmem : w ∈ m.map Prod.fst
  · rw [if_pos hmem]
    constructor
    · exact Or.inl
    · rintro (h | h)
      · exact h
      · subst h; exact hmem
  · rw [if_neg hmem]
    simp [List.mem_append]

theorem nodup_keys_foldl {ts : List String} :
    ∀ {m : List (String × Nat)}, (m.map Prod.fst).Nodup →
      ((ts.foldl add_word m).map Prod.fst).Nodup := by
  induction ts with
  | nil => intro m hm; simpa using hm
  | cons t ts ih =>
    intro m hm
    simp only [List.foldl_cons]
    exact ih (nodup_keys_add_word hm)

theorem mem_keys_foldl {ts : List String} :
    ∀ {m : List (String × Nat)} {x : String},
      x ∈ (ts.foldl add_word m).map Prod.fst ↔ x ∈ m.map Prod.fst ∨ x ∈ ts := by
  induction ts with
  | nil => intro m x; simp
  | cons t ts ih =>
    intro m x
    simp only [List.foldl_cons, List.mem_cons]
    rw [ih, mem_keys_add_word]
    tauto

theorem sum_foldl {ts : List String} :
    ∀ {m : List (String × Nat)},
      ((ts.foldl add_word m).map Prod.snd).sum = (m.map Prod.snd).sum + ts.length := by
  induction ts with
  | nil => intro m; simp
  | cons t ts ih =>
    intro m
    simp only [List.foldl_cons, List.length_cons]
    rw [ih, sum_add_word]
    omega

theorem pos_foldl {ts : List String} :
    ∀ {m : List (String × Nat)}, (∀ q ∈ m, 0 < q.2) →
      ∀ q ∈ ts.foldl add_word m, 0 < q.2 := by
  induction ts with
  | nil => intro m hm; simpa using hm
  | cons t ts ih =>
    intro m hm
    simp only [List.foldl_cons]
    exact ih (pos_add_word hm)

theorem length_foldl_nil (ts : List String) :
    (ts.foldl add_word []).length = ts.dedup.length := by
  have hnodup : ((ts.foldl add_word []).map Prod.fst).Nodup :=
    nodup_keys_foldl (by simp)
  have hmem : ∀ x, x ∈ (ts.foldl add_word []).map Prod.fst ↔ x ∈ ts := by
    intro x
    rw [mem_keys_foldl]
    simp
  have hfin : ((ts.foldl add_word []).map Prod.fst).toFinset = ts.toFinset := by
    ext x
    simp only [List.mem_toFinset]
    exact hmem x
  calc (ts.foldl add_word []).length
      = ((ts.foldl add_word []).map Prod.fst).length := (List.length_map _ _).symm
    _ = ((ts.foldl add_word []).map Prod.fst).toFinset.card :=
        (List.toFinset_card_of_nodup hnodup).symm
    _ = ts.toFinset.card := by rw [hfin]
    _ = ts.dedup.length := List.card_toFinset ts

theorem natCmp_lt_iff {a b : Nat} : natCmp a b = .lt ↔ a < b := by
  unfold natCmp; split_ifs with h1 h2 <;> simp_all <;> omega

theorem natCmp_gt_iff {a b : Nat} : natCmp a b = .gt ↔ b < a := by
  unfold natCmp; split_ifs with h1 h2 <;> simp_all <;> omega

theorem natCmp_eq_iff {a b : Nat} : natCmp a b = .eq ↔ a = b := by
  unfold natCmp; split_ifs with h1 h2 <;> simp_all <;> omega

theorem charCmp_lt_iff {a b : Char} : charCmp a b = .lt ↔ a.toNat < b.toNat := by
  unfold charCmp
  split_ifs with h1 h2 <;> rw [char_lt_iff_toNat] at * <;> simp_all <;> omega

theorem charCmp_gt_iff {a b : Char} : charCmp a b = .gt ↔ b.toNat < a.toNat := by
  unfold charCmp
  split_ifs with h1 h2 <;> rw [char_lt_iff_toNat] at * <;> simp_all <;> omega

theorem charCmp_eq_iff {a b : Char} : charCmp a b = .eq ↔ a = b := by
  unfold charCmp
  split_ifs with h1 h2 <;>
    simp_all [char_lt_iff_toNat, char_eq_iff_toNat] <;> omega

theorem charsCmp_eq_iff : ∀ {a b : List Char}, charsCmp a b = .eq ↔ a = b := by
  intro a
  induction a with
  | nil => intro b; cases b <;> simp [charsCmp]
  | cons x xs ih =>
    intro b
    cases b with
    | nil => simp [charsCmp]
    | cons y ys =>
      simp only [charsCmp]
      cases hxy : charCmp x y <;> simp only [Ordering.then]
      · simp only [List.cons.injEq]
        constructor
        · intro h; exact absurd h (by simp)
        · rintro ⟨h1, h2⟩
          rw [charCmp_eq_iff.mpr h1] at hxy
          exact absurd hxy (by simp)
      · rw [ih]
        have hx : x = y := charCmp_eq_iff.mp hxy
        subst hx
        simp
      · constructor
        · intro h; exact absurd h (by simp)
        · rintro h
          injection h with h1 h2
          rw [charCmp_eq_iff.mpr h1] at hxy
          exact absurd hxy (by simp)

theorem charsCmp_gt_iff_lt : ∀ {a b : List Char}, charsCmp a b = .gt ↔ charsCmp b a = .lt := by
  intro a
  induction a with
  | nil => intro b; cases b <;> simp [charsCmp]
  | cons x xs ih =>
    intro b
    cases b with
    | nil => simp [charsCmp]
    | cons y ys =>
      simp only [charsCmp]
      cases hxy : charCmp x y
      · have hyx : charCmp y x = .gt := by
          rw [charCmp_gt_iff]; exact charCmp_lt_iff.mp hxy
        rw [hyx]
        simp [Ordering.then]
      · have hx : x = y := charCmp_eq_iff.mp hxy
        subst hx
        have hyx : charCmp x x = .eq := charCmp_eq_iff.mpr rfl
        rw [hyx]
        simp only [Ordering.then]
        exact ih
      · have hyx : charCmp y x = .lt := by
          rw [charCmp_lt_iff]; exact charCmp_gt_iff.mp hxy
        rw [hyx]
        simp [Ordering.then]

theorem charsCmp_le_trans : ∀ {a b c : List Char},
    charsCmp a b ≠ .gt → charsCmp b c ≠ .gt → charsCmp a c ≠ .gt := by
  intro a
  induction a with
  | nil =>
    intro b c _ _
    cases c <;> simp [charsCmp]
  | cons x xs ih =>
    intro b c h1 h2
    cases b with
    | nil => exact ((by simpa [charsCmp] using h1 : (Ordering.gt : Ordering) ≠ .gt) rfl).elim
    | cons y ys =>
      cases c with
      | nil => exact ((by simpa [charsCmp] using h2 : (Ordering.gt : Ordering) ≠ .gt) rfl).elim
      | cons z zs =>
        simp only [charsCmp] at h1 h2 ⊢
        cases hxy : charCmp x y <;> rw [hxy] at h1 <;> simp only [Ordering.then] at h1
        · -- x < y
          cases hyz : charCmp y z <;> rw [hyz] at h2 <;> simp only [Ordering.then] at h2
          · have : charCmp x z = .lt := by
              rw [charCmp_lt_iff]
              exact Nat.lt_trans (charCmp_lt_iff.mp hxy) (charCmp_lt_iff.mp hyz)
            rw [this]; simp [Ordering.then]
          · have hy : y = z := charCmp_eq_iff.mp hyz
            subst hy
            rw [hxy]; simp [Ordering.then]
          · exact (h2 rfl).elim
        · -- x = y
          have hx : x = y := charCmp_eq_iff.mp hxy
          subst hx
          cases hyz : charCmp x z <;> rw [hyz] at h2 <;>
            simp only [Ordering.then] at h2 ⊢
          · simp
          · exact ih h1 h2
          · exact (h2 rfl).elim
        · exact (h1 rfl).elim

theorem string_eq_of_data_eq {s t : String} (h : s.data = t.data) : s = t :=
  congrArg String.mk h

theorem entryLe_iff {a b : String × Nat} :
    entryLe a b = true ↔ b.2 < a.2 ∨ (b.2 = a.2 ∧ charsCmp a.1.data b.1.data ≠ .gt) := by
  unfold entryLe entryCmp wordCmp
  rw [decide_eq_true_eq]
  cases hn : natCmp b.2 a.2 <;> simp only [Ordering.then]
  · rw [natCmp_lt_iff] at hn
    constructor
    · intro _; exact Or.inl hn
    · intro _; simp
  · rw [natCmp_eq_iff] at hn
    constructor
    · intro h; exact Or.inr ⟨hn, h⟩
    · rintro (h | ⟨-, h⟩)
      · omega
      · exact h
  · rw [natCmp_gt_iff] at hn
    constructor
    · intro h; exact (h rfl).elim
    · rintro (h | ⟨h, -⟩) <;> omega

theorem entryLe_total (a b : String × Nat) : entryLe a b = true ∨ entryLe b a = true := by
  rw [entryLe_iff, entryLe_iff]
  rcases Nat.lt_trichotomy a.2 b.2 with h | h | h
  · exact Or.inr (Or.inl h)
  · by_cases hw : charsCmp a.1.data b.1.data = .gt
    · refine Or.inr (Or.inr ⟨h, ?_⟩)
      rw [charsCmp_gt_iff_lt] at hw
      rw [hw]
      simp
    · exact Or.inl (Or.inr ⟨h.symm, hw⟩)
  · exact Or.inl (Or.inl h)

theorem entryLe_trans {a b c : String × Nat}
    (h1 : entryLe a b = true) (h2 : entryLe b c = true) : entryLe a c = true := by
  rw [entryLe_iff] at h1 h2 ⊢
  rcases h1 with h1 | ⟨h1e, h1w⟩
  · rcases h2 with h2 | ⟨h2e, h2w⟩
    · exact Or.inl (Nat.lt_trans h2 h1)
    · exact Or.inl (by omega)
  · rcases h2 with h2 | ⟨h2e, h2w⟩
    · exact Or.inl (by omega)
    · exact Or.inr ⟨by omega, charsCmp_le_trans h1w h2w⟩

theorem entryLe_antisymm {a b : String × Nat}
    (h1 : entryLe a b = true) (h2 : entryLe b a = true) : a = b := by
  rw [entryLe_iff] at h1 h2
  rcases h1 with h1 | ⟨h1e, h1w⟩
  · rcases h2 with h2 | ⟨h2e, h2w⟩ <;> omega
  · rcases h2 with h2 | ⟨h2e, h2w⟩
    · omega
    · have hw : charsCmp a.1.data b.1.data = .eq := by
        cases hab : charsCmp a.1.data b.1.data
        · rw [← charsCmp_gt_iff_lt] at hab
          exact absurd hab h2w
        · rfl
        · exact absurd hab h1w
      have : a.1 = b.1 := string_eq_of_data_eq (charsCmp_eq_iff.mp hw)
      have h2' : a.2 = b.2 := by omega
      exact Prod.ext this h2'

theorem perm_insert_by {le : α → α → Bool} (x : α) :
    ∀ l : List α, (insert_by le x l).Perm (x :: l) := by
  intro l
  induction l with
  | nil => exact List.Perm.refl _
  | cons y ys ih =>
    simp only [insert_by]
    by_cases h : le x y
    · rw [if_pos h]
    · rw [if_neg h]
      exact List.Perm.trans (List.Perm.cons y ih) (List.Perm.swap x y ys)

theorem perm_sort_by {le : α → α → Bool} : ∀ l : List α, (sort_by le l).Perm l := by
  intro l
  induction l with
  | nil => exact List.Perm.refl _
  | cons x xs ih =>
    simp only [sort_by]
    exact List.Perm.trans (perm_insert_by x (sort_by le xs)) (List.Perm.cons x ih)

theorem mem_insert_by {le : α → α → Bool} {x z : α} {l : List α}
    (h : z ∈ insert_by le x l) : z = x ∨ z ∈ l := by
  have := (@perm_insert_by _ le x l).mem_iff.mp h
  simpa using this

theorem pairwise_insert_by {le : α → α → Bool}
    (htot : ∀ a b, le a b = true ∨ le b a = true)
    (htr : ∀ {a b c}, le a b = true → le b c = true → le a c = true)
    {x : α} {l : List α} (hl : l.Pairwise (fun a b => le a b = true)) :
    (insert_by le x l).Pairwise (fun a b => le a b = true) := by
  induction l with
  | nil => simp [insert_by]
  | cons y ys ih =>
    rcases List.pairwise_cons.mp hl with ⟨hy, hys⟩
    simp only [insert_by]
    by_cases h : le x y
    · rw [if_pos h]
      refine List.pairwise_cons.mpr ⟨?_, hl⟩
      intro z hz
      rcases List.mem_cons.mp hz with rfl | hz
      · exact h
      · exact htr h (hy z hz)
    · rw [if_neg h]
      refine List.pairwise_cons.mpr ⟨?_, ih hys⟩
      intro z hz
      rcases mem_insert_by hz with rfl | hz
      · rcases htot z y with h' | h'
        · exact absurd h' h
        · exact h'
      · exact hy z hz

theorem pairwise_sort_by {le : α → α → Bool}
    (htot : ∀ a b, le a b = true ∨ le b a = true)
    (htr : ∀ {a b c}, le a b = true → le b c = true → le a c = true) :
    ∀ l : List α, (sort_by le l).Pairwise (fun a b => le a b = true) := by
  intro l
  induction l with
  | nil => simp [sort_by]
  | cons x xs ih =>
    simp only [sort_by]
    exact pairwise_insert_by htot htr ih

instance : IsAntisymm (String × Nat) (fun a b => entryLe a b = true) :=
  ⟨fun _ _ => entryLe_antisymm⟩

theorem sorted_unique {l₁ l₂ : List (String × Nat)}
    (hp : l₁.Perm l₂)
    (h1 : l₁.Pairwise (fun a b => entryLe a b = true))
    (h2 : l₂.Pairwise (fun a b => entryLe a b = true)) : l₁ = l₂ :=
  List.eq_of_perm_of_sorted hp h1 h2

theorem data_mk (l : List Char) : (String.mk l).data = l := rfl

theorem token_chars {line w : String} (hw : w ∈ tokenize_line line) :
    w.data ≠ [] ∧ ∀ c ∈ w.data, is_ascii_alphanumeric c = true ∧
      ¬ (65 ≤ c.toNat ∧ c.toNat ≤ 90) := by
  unfold tokenize_line at hw
  rcases List.mem_map.mp hw with ⟨chunk, hchunk, hmk⟩
  rcases List.mem_filter.mp hchunk with ⟨hsplit, hne⟩
  subst hmk
  rw [data_mk]
  constructor
  · intro h
    subst h
    simp at hne
  · intro c hc
    rcases mem_of_mem_split_on hsplit c hc with ⟨hpred, hmem⟩
    constructor
    · simpa using hpred
    · have : (to_lowercase line).data = line.data.flatMap char_to_lowercase := rfl
      rw [this] at hmem
      rcases List.mem_flatMap.mp hmem with ⟨c₀, _, hcc⟩
      exact toNat_notin_upper_of_mem_char_to_lowercase hcc

theorem all_tokens_chars {logs : List String} {w : String} (hw : w ∈ all_tokens logs) :
    w.data ≠ [] ∧ ∀ c ∈ w.data, is_ascii_alphanumeric c = true ∧
      ¬ (65 ≤ c.toNat ∧ c.toNat ≤ 90) := by
  rcases List.mem_flatMap.mp hw with ⟨line, _, hline⟩
  exact token_chars hline

theorem is_ascii_alpha_iff {c : Char} : is_ascii_alpha c = true ↔
    (65 ≤ c.toNat ∧ c.toNat ≤ 90) ∨ (97 ≤ c.toNat ∧ c.toNat ≤ 122) := by
  obtain ⟨-, -, hA, hZ, -, -⟩ := ascii_code_values
  have ha : ('a' : Char).toNat = 97 := rfl
  have hz : ('z' : Char).toNat = 122 := rfl
  simp only [is_ascii_alpha, Bool.or_eq_true, Bool.and_eq_true, decide_eq_true_eq,
    char_le_iff_toNat, hA, hZ, ha, hz]

theorem char_to_lowercase_of_alpha {c : Char} (h : is_ascii_alpha c = true) :
    char_to_lowercase c = [ascii_fold c] := by
  rw [is_ascii_alpha_iff] at h
  obtain ⟨-, -, hA, hZ, -, -⟩ := ascii_code_values
  unfold char_to_lowercase ascii_fold
  by_cases hu : ('A' ≤ c && c ≤ 'Z') = true
  · rw [if_pos hu, if_pos hu]
  · rw [if_neg hu, if_neg hu]
    have hlow : 97 ≤ c.toNat ∧ c.toNat ≤ 122 := by
      rcases h with h | h
      · exact absurd (by
          simp only [Bool.and_eq_true, decide_eq_true_eq, char_le_iff_toNat, hA, hZ]
          omega) hu
      · exact h
    have hk : c ≠ '\u212A' := by
      intro hck
      have h8 : ('\u212A' : Char).toNat = 8490 := rfl
      have := char_eq_iff_toNat.mp hck
      omega
    have he : c ≠ '\u00C9' := by
      intro hce
      have h2 : ('\u00C9' : Char).toNat = 201 := rfl
      have := char_eq_iff_toNat.mp hce
      omega
    rw [if_neg hk, if_neg he]

theorem char_to_lowercase_case_eq {a b : Char} (h : char_case_eq a b = true) :
    char_to_lowercase a = char_to_lowercase b := by
  unfold char_case_eq at h
  rcases Bool.or_eq_true _ _ |>.mp h with h | h
  · rw [beq_iff_eq] at h
    rw [h]
  · simp only [Bool.and_eq_true, beq_iff_eq] at h
    rcases h with ⟨⟨ha, hb⟩, hf⟩
    rw [char_to_lowercase_of_alpha ha, char_to_lowercase_of_alpha hb, hf]

theorem flatMap_lowercase_case_eq : ∀ {as bs : List Char}, chars_case_eq as bs = true →
    as.flatMap char_to_lowercase = bs.flatMap char_to_lowercase := by
  intro as
  induction as with
  | nil =>
    intro bs h
    cases bs with
    | nil => rfl
    | cons b bs => simp [chars_case_eq] at h
  | cons a as ih =>
    intro bs h
    cases bs with
    | nil => simp [chars_case_eq] at h
    | cons b bs =>
      simp only [chars_case_eq, Bool.and_eq_true] at h
      rcases h with ⟨h1, h2⟩
      simp only [List.flatMap_cons]
      rw [char_to_lowercase_case_eq h1, ih h2]

theorem tokenize_line_case_eq {s t : String} (h : chars_case_eq s.data t.data = true) :
    tokenize_line s = tokenize_line t := by
  unfold tokenize_line
  have : (to_lowercase s).data = (to_lowercase t).data := flatMap_lowercase_case_eq h
  rw [this]

theorem all_tokens_case_eq : ∀ {ss ts : List String}, logs_case_eq ss ts = true →
    all_tokens ss = all_tokens ts := by
  intro ss
  induction ss with
  | nil =>
    intro ts h
    cases ts with
    | nil => rfl
    | cons t ts => simp [logs_case_eq] at h
  | cons s ss ih =>
    intro ts h
    cases ts with
    | nil => simp [logs_case_eq] at h
    | cons t ts =>
      simp only [logs_case_eq, Bool.and_eq_true] at h
      rcases h with ⟨h1, h2⟩
      show tokenize_line s ++ all_tokens ss = tokenize_line t ++ all_tokens ts
      rw [tokenize_line_case_eq h1, ih h2]

theorem word_counts_perm (logs : List String) :
    (word_counts logs).Perm (build_frequency (all_tokens logs)) :=
  perm_sort_by _

theorem word_counts_pairwise (logs : List String) :
    (word_counts logs).Pairwise (fun a b => entryLe a b = true) :=
  pairwise_sort_by entryLe_total entryLe_trans _

theorem word_counts_nodup_keys (logs : List String) :
    ((word_counts logs).map Prod.fst).Nodup := by
  have h1 : ((build_frequency (all_tokens logs)).map Prod.fst).Nodup :=
    nodup_keys_foldl (by simp)
  exact (((word_counts_perm logs).map Prod.fst).nodup_iff).mpr h1

theorem mem_build_frequency_of_mem_top {logs : List String} {k : Nat} {q : String × Nat}
    (h : q ∈ top_k_words logs k) : q ∈ build_frequency (all_tokens logs) := by
  have h1 : q ∈ word_counts logs := List.take_subset k _ h
  exact (word_counts_perm logs).subset h1

-- C1
/-- Claim C1: for every input and every k, the length of `top_k_words` equals
`min k (number of distinct tokens)`; in particular `k = 0` yields the empty
list for every input. -/
theorem top_k_words_length (logs : List String) (k : Nat) :
    (top_k_words logs k).length = min k ((all_tokens logs).dedup.length) ∧
      top_k_words logs 0 = [] := by
  have hlen : (word_counts logs).length = (all_tokens logs).dedup.length := by
    rw [(word_counts_perm logs).length_eq]
    exact length_foldl_nil _
  constructor
  · rw [top_k_words, List.length_take, hlen]
  · rfl

-- C2
/-- Claim C2: the output of `top_k_words` is strictly sorted: each consecutive
pair has strictly decreasing count, or equal counts and strictly increasing
words in byte-lexicographic order; and no two entries share a token. -/
theorem top_k_words_strictly_sorted (logs : List String) (k : Nat) :
    List.Chain' (fun a b => b.2 < a.2 ∨ (b.2 = a.2 ∧ wordCmp a.1 b.1 = .lt))
        (top_k_words logs k) ∧
      ((top_k_words logs k).map Prod.fst).Nodup := by
  have hsub : (top_k_words logs k).Sublist (word_counts logs) := List.take_sublist k _
  have hnodup : ((top_k_words logs k).map Prod.fst).Nodup :=
    List.Nodup.sublist (hsub.map Prod.fst) (word_counts_nodup_keys logs)
  refine ⟨?_, hnodup⟩
  have hle : (top_k_words logs k).Pairwise (fun a b => entryLe a b = true) :=
    List.Pairwise.sublist hsub (word_counts_pairwise logs)
  have hne : (top_k_words logs k).Pairwise (fun a b => a.1 ≠ b.1) :=
    List.pairwise_map.mp hnodup
  have hpair := hle.and hne
  refine List.Pairwise.chain' (List.Pairwise.imp ?_ hpair)
  rintro a b ⟨hab, hne'⟩
  rw [entryLe_iff] at hab
  rcases hab with h | ⟨he, hw⟩
  · exact Or.inl h
  · refine Or.inr ⟨he, ?_⟩
    have hdne : a.1.data ≠ b.1.data := fun hd => hne' (string_eq_of_data_eq hd)
    show charsCmp a.1.data b.1.data = .lt
    cases hab : charsCmp a.1.data b.1.data
    · rfl
    · exact absurd (charsCmp_eq_iff.mp hab) hdne
    · exact absurd hab hw

-- C3
/-- Claim C3: the counts in the frequency table — equivalently in the full
sorted result before truncation — sum to the total number of tokens extracted
from all input lines. -/
theorem counts_sum_eq_total_tokens (logs : List String) :
    ((build_frequency (all_tokens logs)).map Prod.snd).sum = (all_tokens logs).length ∧
      ((word_counts logs).map Prod.snd).sum = (all_tokens logs).length := by
  have h1 : ((build_frequency (all_tokens logs)).map Prod.snd).sum =
      (all_tokens logs).length := by
    have := @sum_foldl (all_tokens logs) []
    simpa [build_frequency] using this
  refine ⟨h1, ?_⟩
  rw [← h1]
  exact ((word_counts_perm logs).map Prod.snd).sum_eq

-- C4 counterexample
/-- Claim C4 as stated is false: the folding step is Unicode lowercasing, not
ASCII-only.  U+212A KELVIN SIGN is a non-ASCII letter, yet the folding step
maps it to ASCII `k` rather than passing it through unmodified, and it
thereby contributes a character to a token. -/
theorem case_folding_modifies_non_ascii :
    is_ascii '\u212A' = false ∧
      to_lowercase "\u212A" ≠ "\u212A" ∧
      top_k_words ["\u212A"] 1 = [("k", 1)] := by
  refine ⟨by decide, by decide, by decide⟩

-- C4 amended
/-- Claim C4 amended: the alphanumeric classification is ASCII-only — no
non-ASCII character is ever classified as alphanumeric — but the folding step
is Unicode lowercasing, so a non-ASCII character need not be passed through
unmodified, and a non-ASCII letter can contribute characters to a token
(witness: U+212A KELVIN SIGN lowercases to ASCII `k`). -/
theorem non_ascii_never_alphanumeric :
    (∀ c : Char, is_ascii c = false → is_ascii_alphanumeric c = false) ∧
      char_to_lowercase '\u212A' = ['k'] ∧
      top_k_words ["\u212A"] 1 = [("k", 1)] := by
  refine ⟨?_, by decide, by decide⟩
  intro c hc
  have h128 : 128 ≤ c.toNat := by
    unfold is_ascii at hc
    rw [decide_eq_false_iff_not] at hc
    omega
  rw [Bool.eq_false_iff]
  intro ha
  rw [is_ascii_alphanumeric_iff] at ha
  omega

/-- Witness for the amended claim C4, at the concrete non-ASCII character
U+00C9. -/
theorem non_ascii_never_alphanumeric_witness :
    is_ascii '\u00C9' = false ∧ is_ascii_alphanumeric '\u00C9' = false :=
  ⟨by decide, non_ascii_never_alphanumeric.1 '\u00C9' (by decide)⟩

-- C5
/-- Claim C5: `top_k_words` is deterministic — the result does not depend on
the order in which the hash map's entries are materialized: sorting any
permutation of the frequency table and truncating yields the same output,
because the comparator is a strict total order on entries. -/
theorem top_k_words_deterministic (logs : List String) (k : Nat)
    (entries : List (String × Nat))
    (h : entries.Perm (build_frequency (all_tokens logs))) :
    (sort_by entryLe entries).take k = top_k_words logs k := by
  have h1 : (sort_by entryLe entries).Pairwise (fun a b => entryLe a b = true) :=
    pairwise_sort_by entryLe_total entryLe_trans entries
  have hp : (sort_by entryLe entries).Perm (word_counts logs) :=
    ((perm_sort_by entries).trans h).trans (word_counts_perm logs).symm
  have heq : sort_by entryLe entries = word_counts logs :=
    sorted_unique hp h1 (word_counts_pairwise logs)
  rw [heq]
  rfl

/-- Witness for claim C5: a concretely permuted materialization of the
frequency table of `["b a"]` sorts to the same ranked output. -/
theorem top_k_words_deterministic_witness :
    ([(("a" : String), 1), (("b" : String), 1)]).Perm
        (build_frequency (all_tokens ["b a"])) ∧
      (sort_by entryLe [(("a" : String), 1), (("b" : String), 1)]).take 2 =
        top_k_words ["b a"] 2 :=
  ⟨by decide, top_k_words_deterministic ["b a"] 2 _ (by decide)⟩

-- C6
/-- Claim C6: tokenization is case-insensitive — changing the ASCII case of
letters in the input lines does not change the output of `top_k_words`. -/
theorem top_k_words_case_insensitive (logs₁ logs₂ : List String) (k : Nat)
    (h : logs_case_eq logs₁ logs₂ = true) :
    top_k_words logs₁ k = top_k_words logs₂ k := by
  unfold top_k_words word_counts
  rw [all_tokens_case_eq h]

/-- Witness for claim C6: inputs differing only in ASCII letter case produce
identical outputs, and `Error`, `error`, `ERROR` are counted as one token. -/
theorem top_k_words_case_insensitive_witness :
    logs_case_eq ["Error: disk"] ["ERROR: Disk"] = true ∧
      top_k_words ["Error: disk"] 2 = top_k_words ["ERROR: Disk"] 2 ∧
      top_k_words ["Error error ERROR"] 1 = [("error", 3)] :=
  ⟨by decide, top_k_words_case_insensitive ["Error: disk"] ["ERROR: Disk"] 2 (by decide),
    by decide⟩

-- C7
/-- Claim C7: every token in the output is non-empty and consists only of
ASCII lowercase letters and digits. -/
theorem top_k_words_tokens_lower_alnum (logs : List String) (k : Nat)
    (w : String) (c : Nat) (h : (w, c) ∈ top_k_words logs k) :
    w.data ≠ [] ∧ ∀ ch ∈ w.data, is_ascii_lower_alnum ch = true := by
  have hb : (w, c) ∈ build_frequency (all_tokens logs) :=
    mem_build_frequency_of_mem_top h
  have hk : w ∈ (build_frequency (all_tokens logs)).map Prod.fst :=
    List.mem_map_of_mem Prod.fst hb
  have hw : w ∈ all_tokens logs := by
    have := mem_keys_foldl.mp hk
    simpa using this
  rcases all_tokens_chars hw with ⟨hne, hch⟩
  refine ⟨hne, fun ch hc => ?_⟩
  rcases hch ch hc with ⟨ha, hu⟩
  exact lower_alnum_of_alnum_not_upper ha hu

/-- Witness for claim C7 at a concrete input containing upper case, digits
and punctuation. -/
theorem top_k_words_tokens_lower_alnum_witness :
    ((("ab1" : String), 1) ∈ top_k_words ["Ab1!"] 1) ∧
      ("ab1" : String).data ≠ [] ∧
      ∀ ch ∈ ("ab1" : String).data, is_ascii_lower_alnum ch = true :=
  ⟨by decide, top_k_words_tokens_lower_alnum ["Ab1!"] 1 "ab1" 1 (by decide)⟩

-- C8
/-- Claim C8: `top_k_words` is total — every input produces a ranked list:
its length is at most `k` and it is ordered by the ranking comparator; no
input is rejected. -/
theorem top_k_words_total (logs : List String) (k : Nat) :
    ∃ r, top_k_words logs k = r ∧ r.length ≤ k ∧
      r.Pairwise (fun a b => entryLe a b = true) := by
  refine ⟨top_k_words logs k, rfl, ?_, ?_⟩
  · rw [top_k_words, List.length_take]
    exact inf_le_left
  · exact List.Pairwise.sublist (List.take_sublist k _) (word_counts_pairwise logs)

theorem static_add_word_eq : StaticMain.add_word = add_word := by
  funext m w
  induction m with
  | nil => rfl
  | cons q rest ih =>
    rcases q with ⟨w', c⟩
    show (if w' = w then (w', c + 1) :: rest else (w', c) :: StaticMain.add_word rest w) =
      add_word ((w', c) :: rest) w
    rw [ih]
    rfl

theorem static_tokenize_line_eq : StaticMain.tokenize_line = tokenize_line := rfl

theorem static_entryLe_eq : StaticMain.entryLe = entryLe := rfl

-- C9
/-- Claim C9: the `top_k_words` of the CLI entry point and the `top_k_words`
of the static-data entry point compute the same function. -/
theorem top_k_words_cli_eq_static :
    ∀ (logs : List String) (k : Nat),
      top_k_words logs k = StaticMain.top_k_words logs k := by
  intro logs k
  show (sort_by entryLe ((logs.flatMap tokenize_line).foldl add_word [])).take k =
    (sort_by StaticMain.entryLe
      ((logs.flatMap StaticMain.tokenize_line).foldl StaticMain.add_word [])).take k
  rw [static_add_word_eq, static_tokenize_line_eq, static_entryLe_eq]

-- C10
/-- Claim C10: every count in the output is at least 1, and an output token
always occurred in some input line. -/
theorem top_k_words_counts_pos (logs : List String) (k : Nat)
    (w : String) (c : Nat) (h : (w, c) ∈ top_k_words logs k) :
    1 ≤ c ∧ w ∈ all_tokens logs := by
  have hb : (w, c) ∈ build_frequency (all_tokens logs) :=
    mem_build_frequency_of_mem_top h
  constructor
  · have := @pos_foldl (all_tokens logs) [] (by simp) (w, c) hb
    omega
  · have hk : w ∈ (build_frequency (all_tokens logs)).map Prod.fst :=
      List.mem_map_of_mem Prod.fst hb
    have := mem_keys_foldl.mp hk
    simpa using this

/-- Witness for claim C10 at a concrete input. -/
theorem top_k_words_counts_pos_witness :
    ((("hi" : String), 1) ∈ top_k_words ["hi"] 1) ∧
      1 ≤ 1 ∧ ("hi" : String) ∈ all_tokens ["hi"] :=
  ⟨by decide, top_k_words_counts_pos ["hi"] 1 "hi" 1 (by decide)⟩

/-- Evaluation check mirroring the source's `test_basic_functionality` unit
test. -/
theorem eval_basic_functionality :
    top_k_words ["Error: Disk full", "error: network down", "ERROR: disk error"] 2 =
      [("error", 4), ("disk", 2)] := by decide

/-- Evaluation check mirroring the source's `test_sorting_order` unit test. -/
theorem eval_sorting_order :
    top_k_words ["apple banana apple", "banana cherry", "apple cherry date", "date egg"] 4 =
      [("apple", 3), ("banana", 2), ("cherry", 2), ("date", 2)] := by decide

/-- Evaluation check mirroring the source's `test_alphanumeric_words` unit
test. -/
theorem eval_alphanumeric_words :
    top_k_words ["Error123 test 123", "error123 test test", "test123 456"] 3 =
      [("test", 3), ("error123", 2), ("123", 1)] := by decide

/-- Evaluation check mirroring the source's `test_empty_input` and
`test_k_zero` unit tests. -/
theorem eval_empty_and_zero :
    top_k_words [] 5 = [] ∧ top_k_words ["test"] 0 = [] := by decide
